import Mathlib
/-!
Verification of the `ranked_belief` C++ library core against its
natural-language specification.

The development shallowly embeds the lazy ranked-sequence core:

* `Rank` mirrors `include/ranked_belief/rank.hpp`: a finite natural
  magnitude or the distinguished infinity, with the comparison, addition,
  checked subtraction and the checked `from_value` constructor.
* Lazy ranked sequences (`RankingElement` chains) are embedded as finite
  lists of `(value, rank)` pairs; forcing order and memoization do not
  change which elements a sequence enumerates, so list equality captures
  the enumeration-level contracts.  The rank magnitudes use unbounded
  `Nat`; the single place where the 2^63 ceiling is observable
  (`Rank::from_value`) is modelled with its explicit bound check.
* Each operation (`merge`, `merge_apply`'s `detail::merge_with_ranks`,
  `observe`/`detail::normalize_with_shift`, `normal_exceptional`,
  `shift_ranks`, `filter`) is translated branch for branch from the
  corresponding header under `include/ranked_belief/operations/`.
* `Promise` (promise.hpp) is embedded as an explicit state record with
  the same four fields the C++ class carries (computation, value slot,
  exception slot, once-flag), and `force` follows
  `Promise::force`/`Promise::execute_computation` step by step.
* The deduplicating iterator (`ranking_iterator.hpp`) is embedded with an
  optional equality oracle mirroring the compile-time `if constexpr`
  dispatch in `RankingIterator::skip_duplicates_of`.
-/
namespace RankedBelief
/-- A rank: a finite natural magnitude or the distinguished infinity.
Mirrors the `value_` / `is_infinity_` pair of `class Rank` in rank.hpp. -/
inductive Rank where
  | fin : Nat → Rank
  | inf : Rank
deriving DecidableEq, Repr
/-- Source `Rank::zero()`. -/
def Rank.zero : Rank := .fin 0
/-- The comparison `a <= b` of `Rank::operator<=>`: infinity is greater
than every finite value, finite values compare by magnitude. -/
def Rank.ble : Rank → Rank → Bool
  | _, .inf => true
  | .inf, .fin _ => false
  | .fin a, .fin b => a ≤ b
/-- The strict comparison `a < b` of `Rank::operator<=>`. -/
def Rank.blt : Rank → Rank → Bool
  | .inf, _ => false
  | .fin _, .inf => true
  | .fin a, .fin b => a < b
/-- Source `Rank::operator+`: infinity is absorbing, finite values add.  The
magnitudes are unbounded here; the source's checked overflow at
`max_finite_value()` aborts evaluation rather than emitting a wrong rank,
so order statements are unaffected. -/
def Rank.add : Rank → Rank → Rank
  | .inf, _ => .inf
  | .fin _, .inf => .inf
  | .fin a, .fin b => .fin (a + b)
/-- Total version of `Rank::operator-` used where the source guards the
call so that both operands are finite and the left is the larger
(observe's renormalization).  Outside that domain the source throws; the
junk values here are never reached under the theorems' hypotheses. -/
def Rank.subTrunc : Rank → Rank → Rank
  | .fin a, .fin b => .fin (a - b)
  | _, _ => .inf
/-- Checked version of `Rank::operator-`: `none` exactly when the source
throws (an infinite operand, or underflow). -/
def Rank.subChecked : Rank → Rank → Option Rank
  | .fin a, .fin b => if a < b then none else some (.fin (a - b))
  | _, _ => none
/-- Source `Rank::max_finite_value()`: `std::numeric_limits<int64_t>::max()`,
that is `2^63 - 1`. -/
def Rank.maxFiniteValue : Nat := 9223372036854775807
/-- The `std::invalid_argument` failure of `Rank::from_value`. -/
inductive RankError where
  | invalidValue : RankError
deriving DecidableEq, Repr
/-- Source `Rank::from_value(u)`: rejects `u >= max_finite_value()`, otherwise
wraps the finite magnitude.  The argument range is the `uint64_t` domain;
the bound check makes the modulus irrelevant. -/
def Rank.fromValue (u : Nat) : Except RankError Rank :=
  if u ≥ Rank.maxFiniteValue then .error .invalidValue else .ok (.fin u)
/-- A sequence (a chain of `RankingElement<T>` nodes) enumerates a list of
`(value, rank)` pairs; the spec's "non-decreasing ranks" invariant. -/
def RanksMono {α : Type} (l : List (α × Rank)) : Prop :=
  l.Pairwise (fun p q => p.2.ble q.2 = true)
instance {α : Type} (l : List (α × Rank)) : Decidable (RanksMono l) :=
  inferInstanceAs (Decidable (l.Pairwise _))
/-- Rank `s` is a lower bound on every rank in `l`. -/
def rankLB {α : Type} (s : Rank) (l : List (α × Rank)) : Prop :=
  ∀ x ∈ l, s.ble x.2 = true
instance {α : Type} (s : Rank) (l : List (α × Rank)) :
    Decidable (rankLB s l) :=
  inferInstanceAs (Decidable (∀ x ∈ l, _))
/-- The recursive step of `merge` in operations/merge.hpp
(`build_merged_impl`): `seen` is the rank emitted immediately before
(`seen_rank`, `Rank::zero()` at the start).  The pointer-equality
shortcuts in the source (`elem1 == elem2` and the
`next_elem1 == elem2` guards inside the tail promises) never fire for
sequences with distinct node graphs, which is the regime of the claims,
so they are not represented. -/
def mergeStep {α : Type} :
    List (α × Rank) → List (α × Rank) → Rank → List (α × Rank)
  | [], l2, _ => l2
  | l1, [], _ => l1
  | (v1, r1) :: t1, (v2, r2) :: t2, seen =>
    if r1 = seen then
      (v1, r1) :: mergeStep t1 ((v2, r2) :: t2) seen
    else if r1.ble r2 then
      (v1, r1) :: mergeStep t1 ((v2, r2) :: t2) r1
    else
      (v2, r2) :: mergeStep ((v1, r1) :: t1) t2 r2
termination_by l1 l2 _ => l1.length + l2.length
/-- Source `merge(rf1, rf2, dedup)` for sequences with distinct node graphs:
the source starts `build_merged_impl` at both heads with `Rank::zero()`. -/
def mergeList {α : Type} (a b : List (α × Rank)) : List (α × Rank) :=
  mergeStep a b Rank.zero
/-- The textbook stable rank merge: the canonical form used to reason
about `mergeStep`; on monotone inputs the two coincide. -/
def rankMerge {α : Type} :
    List (α × Rank) → List (α × Rank) → List (α × Rank)
  | [], l2 => l2
  | l1, [] => l1
  | (v1, r1) :: t1, (v2, r2) :: t2 =>
    if r1.ble r2 then (v1, r1) :: rankMerge t1 ((v2, r2) :: t2)
    else (v2, r2) :: rankMerge ((v1, r1) :: t1) t2
termination_by l1 l2 => l1.length + l2.length
/-- Source `filter(rf, predicate, dedup)` from operations/filter.hpp: keeps the
elements whose value satisfies the predicate, preserving ranks. -/
def filterList {α : Type} (p : α → Bool) (l : List (α × Rank)) :
    List (α × Rank) :=
  l.filter (fun x => p x.1)
/-- Source `detail::normalize_with_shift` from operations/observe.hpp: walks the
sequence, ends it at the first infinite rank, and subtracts
`shift_amount` from every finite rank it passes. -/
def normalizeWithShift {α : Type} :
    List (α × Rank) → Rank → List (α × Rank)
  | [], _ => []
  | (v, r) :: t, δ =>
    if r = Rank.inf then [] else (v, r.subTrunc δ) :: normalizeWithShift t δ
/-- Source `observe(rf, predicate, dedup)` from operations/observe.hpp: filter,
then inspect the surviving head rank; empty result on an infinite head,
the filtered sequence unchanged on a zero head, otherwise the lazily
shifted walk. -/
def observeList {α : Type} (p : α → Bool) (l : List (α × Rank)) :
    List (α × Rank) :=
  match filterList p l with
  | [] => []
  | (v, r) :: t =>
    if r = Rank.inf then []
    else if r = Rank.zero then filterList p l
    else normalizeWithShift (filterList p l) r
/-- Consecutive rank differences of a sequence, with `Rank::operator-`'s
partiality made explicit: `none` where the source subtraction throws. -/
def rankDiffs {α : Type} : List (α × Rank) → List (Option Rank)
  | [] => []
  | [_] => []
  | (_, r1) :: (v, r2) :: t => r2.subChecked r1 :: rankDiffs ((v, r2) :: t)
/-- Source `shift_ranks(rf, shift_amount)` from operations/merge_apply.hpp: the
same values with `elem->rank() + shift_amount`.  (The `shift == zero`
early return produces the same enumeration.) -/
def shiftList {α : Type} (l : List (α × Rank)) (δ : Rank) :
    List (α × Rank) :=
  l.map (fun x => (x.1, x.2.add δ))
/-- Source `detail::merge_with_ranks(first, first_rank, second_promise,
second_min_rank)` from operations/merge_apply.hpp, with the lazy
`second_promise` made explicit: `none` models a null promise, `some sl`
the sequence it would force to.  The branch order follows the source:
empty first defers to the forced second; an infinite bound or a null
promise returns first; `first_rank <= second_min_rank` emits from first;
otherwise the second is forced and its head emitted. -/
def mwr {α : Type} :
    List (α × Rank) → Option (List (α × Rank)) → Rank → List (α × Rank)
  | [], second, _ => second.getD []
  | (u, s) :: ft, none, _ => (u, s) :: ft
  | (u, s) :: ft, some sl, secondMin =>
    if secondMin = Rank.inf then (u, s) :: ft
    else if s.ble secondMin then (u, s) :: mwr ft (some sl) secondMin
    else
      match sl with
      | [] => (u, s) :: ft
      | (w, q) :: rt =>
        (w, q) :: mwr ((u, s) :: ft)
          (if rt.isEmpty then none else some rt)
          (match rt with | [] => Rank.inf | (_, q2) :: _ => q2)
termination_by first second _ => first.length + (second.getD []).length
decreasing_by
  · simp only [Option.getD_some, List.length_cons]
    omega
  · split
    · simp
    · simp only [Option.getD_some, List.length_cons]
      omega
/-- Source `merge_apply(rf, func, dedup)` from operations/merge_apply.hpp: for
the input head `(v, r)` the function's result is shifted by `r` and
merged, via `detail::merge_with_ranks`, against the lazily recursing rest
whose promised minimum rank is the rank of the next input node
(`Rank::infinity()` when there is none, in which case the promise pointer
itself is null). -/
def mergeApplyList {α β : Type} (f : α → List (β × Rank)) :
    List (α × Rank) → List (β × Rank)
  | [] => []
  | (v, r) :: rest =>
    mwr (shiftList (f v) r)
      (match rest with
       | [] => none
       | _ :: _ => some (mergeApplyList f rest))
      (match rest with
       | [] => Rank.inf
       | (_, r2) :: _ => r2)
/-- Source `normal_exceptional(normal, exceptional, exceptional_rank, dedup)`
from operations/nrm_exc.hpp.  `exc` is the sequence the exceptional thunk
produces; the memoized `ensure_exceptional` always realises
`shift_ranks(exc, δ)` (the source skips the shift call when `δ = 0`,
which shifts by nothing).  The dead re-check of an empty exceptional head
after the `use_normal_head` flag has flipped is unreachable and not
represented. -/
def normalExceptional {α : Type} (normal exc : List (α × Rank))
    (δ : Rank) : List (α × Rank) :=
  match normal with
  | [] => shiftList exc δ
  | (v, rN) :: ntail =>
    match shiftList exc δ with
    | [] => (v, rN) :: mergeStep ntail [] Rank.zero
    | (w, rE) :: etail =>
      if δ.ble rN && rE.blt rN then
        (w, rE) :: mergeStep ((v, rN) :: ntail) etail Rank.zero
      else
        (v, rN) :: mergeStep ntail ((w, rE) :: etail) Rank.zero
/-- Modelled from the spec: `lazy_deepcopy_ranking_sequence`, which
merge.hpp calls on self-merge with deduplication disabled, is declared
nowhere in the sources; the spec describes it as a lazy copy of the node
graph "so nodes are not pointer-identical", reproducing each element. -/
def deepcopyList {α : Type} : List (α × Rank) → List (α × Rank)
  | [] => []
  | (v, r) :: t => (v, r) :: deepcopyList t
/-- The head-pointer-equality special case at the top of `merge`
(operations/merge.hpp): for a self-merge, dedup on returns the first
argument itself; dedup off merges the first argument against a lazy deep
copy of the second, starting from `Rank::zero()`. -/
def mergeSameHead {α : Type} (l : List (α × Rank)) (dedup : Bool) :
    List (α × Rank) :=
  if dedup then l else mergeStep l (deepcopyList l) Rank.zero
/-- The failures `Promise<T>::force` can surface, promise.hpp: a captured
user exception re-thrown from the slot, the `std::logic_error` thrown
(and then captured) inside `execute_computation` when no computation is
held, and the `std::logic_error` for an invalid (moved-from) state. -/
inductive PromiseError (E : Type) where
  | user : E → PromiseError E
  | noComputation : PromiseError E
  | invalidState : PromiseError E
deriving DecidableEq, Repr
/-- The state of a `Promise<T>`: the four fields `computation_`,
`value_`, `exception_`, `force_flag_` of promise.hpp.  A computation that
throws is a function into `Except`. -/
structure Promise (E T : Type) where
  computation : Option (Unit → Except E T)
  value : Option T
  exception : Option (PromiseError E)
  forced : Bool
/-- Constructor `Promise(std::function<T()>)`: holds the computation, nothing forced.
(The null-function guard of the source cannot fire: the computation is
always present here.) -/
def Promise.fromComputation {E T : Type} (c : Unit → Except E T) :
    Promise E T :=
  ⟨some c, none, none, false⟩
/-- Constructor `Promise(T value)`: an already-realized value, flagged as forced. -/
def Promise.fromValue {E T : Type} (v : T) : Promise E T :=
  ⟨none, some v, none, true⟩
/-- Source `Promise::execute_computation`: a no-op when the value slot is
already filled (move of a forced promise); otherwise runs the
computation, storing the value or capturing the failure, and clears the
computation either way; with no computation held, the thrown logic error
is itself captured by the catch. -/
def Promise.executeComputation {E T : Type} (p : Promise E T) :
    Promise E T :=
  if p.value.isSome then p
  else
    match p.computation with
    | none => { p with exception := some .noComputation, computation := none }
    | some c =>
      match c () with
      | .ok v => { p with value := some v, computation := none }
      | .error e =>
        { p with exception := some (.user e), computation := none }
/-- The outcome of one `force()` call: the returned value or raised
failure, the promise state afterwards, and whether this call invoked the
held computation. -/
structure ForceOut (E T : Type) where
  result : Except (PromiseError E) T
  state : Promise E T
  ran : Bool
/-- Source `Promise::force`: `std::call_once` runs `execute_computation` only
when the once-flag is clear; then a stored exception is re-thrown, a
stored value returned, and an empty slot reported as an invalid
(moved-from) state. -/
def Promise.force {E T : Type} (p : Promise E T) : ForceOut E T :=
  let p2 := if p.forced then p
            else { p.executeComputation with forced := true }
  let ran := !p.forced && p.value.isNone && p.computation.isSome
  match p2.exception with
  | some e => ⟨.error e, p2, ran⟩
  | none =>
    match p2.value with
    | some v => ⟨.ok v, p2, ran⟩
    | none => ⟨.error .invalidState, p2, ran⟩
/-- The move constructor `Promise(Promise&&)`: moves `computation_`,
`value_`, `exception_` — but `std::once_flag` is not movable, so the
moved-to promise starts with a fresh, un-fired flag. -/
def Promise.moveFrom {E T : Type} (p : Promise E T) : Promise E T :=
  ⟨p.computation, p.value, p.exception, false⟩
/-- One `operator++` of `RankingIterator<T>` (ranking_iterator.hpp),
positioned on the head of the list.  `eqFn` is the compile-time equality
dispatch of `skip_duplicates_of`: `some eq` when `T` is
equality-comparable (or `std::any` with a registered equality), `none`
when `T` supports no equality — in that constexpr branch the function
body is empty.  With deduplication on, the saved current value is
skipped past after the move to `next`. -/
def iterAdvance {α : Type} (eqFn : Option (α → α → Bool)) (dedup : Bool) :
    List (α × Rank) → List (α × Rank)
  | [] => []
  | (v, _) :: rest =>
    if dedup then
      match eqFn with
      | some eq => rest.dropWhile (fun q => eq q.1 v)
      | none => rest
    else rest
/-- A full traversal: repeatedly dereference and `operator++` until the
end sentinel. -/
def iterToList {α : Type} (eqFn : Option (α → α → Bool)) (dedup : Bool) :
    List (α × Rank) → List (α × Rank)
  | [] => []
  | x :: rest => x :: iterToList eqFn dedup (iterAdvance eqFn dedup (x :: rest))
termination_by l => l.length
decreasing_by
  rename_i x rest
  rcases x with ⟨v, r⟩
  rcases dedup with _ | _
  · simp [iterAdvance]
  · rcases eqFn with _ | eq
    · simp [iterAdvance]
    · have hd : ∀ m : List (α × Rank),
          (m.dropWhile (fun q => eq q.1 v)).length ≤ m.length := by
        intro m
        induction m with
        | nil => simp
        | cons y t ih =>
            rw [List.dropWhile_cons]
            split
            · simp only [List.length_cons]
              omega
            · simp
      have := hd rest
      simp only [iterAdvance, if_true, List.length_cons]
      omega
/-- The failing input for merge_apply: `f` applied to the rank-0 input
value yields ranks 0 and 5; applied to the rank-1 input value it yields
rank 9 (shifted to 10). -/
def c1f : Nat → List (Nat × Rank) := fun n =>
  if n = 0 then [(10, Rank.fin 0), (11, Rank.fin 5)]
  else if n = 1 then [(12, Rank.fin 9)]
  else []

/-- The rank-monotone input sequence for the merge_apply failing input. -/
def c1input : List (Nat × Rank) := [(0, Rank.fin 0), (1, Rank.fin 1)]

/-- A computation that fails: the held closure raises error `7`. -/
def c7comp : Unit → Except Nat Nat := fun _ => .error 7

theorem Rank.ble_inf (r : Rank) : r.ble .inf = true := by
  cases r <;> rfl
theorem Rank.ble_refl (r : Rank) : r.ble r = true := by
  cases r <;> simp [Rank.ble]
theorem Rank.ble_trans {a b c : Rank} (h₁ : a.ble b = true)
    (h₂ : b.ble c = true) : a.ble c = true := by
  cases a <;> cases b <;> cases c <;> simp_all [Rank.ble] <;> omega
theorem Rank.ble_total {a b : Rank} (h : a.ble b = false) :
    b.ble a = true := by
  cases a <;> cases b <;> simp_all [Rank.ble] <;> omega
theorem Rank.zero_ble (r : Rank) : Rank.zero.ble r = true := by
  cases r <;> simp [Rank.ble, Rank.zero]
theorem Rank.blt_iff_not_ble {a b : Rank} :
    a.blt b = true ↔ b.ble a = false := by
  cases a <;> cases b <;> simp [Rank.blt, Rank.ble] <;> omega
theorem Rank.ble_add_right {a b : Rank} (δ : Rank) (h : a.ble b = true) :
    (a.add δ).ble (b.add δ) = true := by
  cases a <;> cases b <;> cases δ <;> simp_all [Rank.ble, Rank.add]
theorem Rank.ble_add_left (δ t : Rank) : δ.ble (t.add δ) = true := by
  cases δ <;> cases t <;> simp [Rank.ble, Rank.add]
theorem rankLB_zero {α : Type} (l : List (α × Rank)) :
    rankLB Rank.zero l := fun x _ => Rank.zero_ble x.2
theorem RanksMono.tail_of_cons {α : Type} {x : α × Rank}
    {t : List (α × Rank)} (h : RanksMono (x :: t)) : RanksMono t :=
  (List.pairwise_cons.mp h).2
theorem RanksMono.head_lb {α : Type} {x : α × Rank} {t : List (α × Rank)}
    (h : RanksMono (x :: t)) : rankLB x.2 (x :: t) := by
  intro y hy
  rcases List.mem_cons.mp hy with h' | h'
  · subst h'; exact Rank.ble_refl _
  · exact (List.pairwise_cons.mp h).1 y h'
theorem mergeStep_nil_right {α : Type} (l : List (α × Rank)) (seen : Rank) :
    mergeStep l [] seen = l := by
  cases l <;> simp [mergeStep]
theorem rankMerge_nil_right {α : Type} (l : List (α × Rank)) :
    rankMerge l [] = l := by
  cases l <;> simp [rankMerge]
theorem mergeStep_perm_append {α : Type} (l1 l2 : List (α × Rank))
    (seen : Rank) : (mergeStep l1 l2 seen).Perm (l1 ++ l2) := by
  induction l1, l2, seen using mergeStep.induct with
  | case1 l2 seen => simp [mergeStep]
  | case2 l1 seen h => rw [mergeStep_nil_right]; simp
  | case3 v1 t1 v2 r2 t2 seen ih =>
      rw [mergeStep]
      simp only [if_pos rfl]
      exact ih.cons _
  | case4 v1 r1 t1 v2 r2 t2 seen h₁ h₂ ih =>
      rw [mergeStep]
      simp only [if_neg h₁, if_pos h₂]
      exact ih.cons _
  | case5 v1 r1 t1 v2 r2 t2 seen h₁ h₂ ih =>
      rw [mergeStep]
      simp only [if_neg h₁, if_neg h₂]
      exact (ih.cons _).trans List.perm_middle.symm
theorem rankMerge_perm_append {α : Type} (l1 l2 : List (α × Rank)) :
    (rankMerge l1 l2).Perm (l1 ++ l2) := by
  induction l1, l2 using rankMerge.induct with
  | case1 l2 => simp [rankMerge]
  | case2 l1 h => rw [rankMerge_nil_right]; simp
  | case3 v1 r1 t1 v2 r2 t2 h ih =>
      rw [rankMerge]
      simp only [if_pos h]
      exact ih.cons _
  | case4 v1 r1 t1 v2 r2 t2 h ih =>
      rw [rankMerge]
      simp only [if_neg h]
      exact (ih.cons _).trans List.perm_middle.symm
theorem rankLB_cons {α : Type} {s : Rank} {x : α × Rank}
    {t : List (α × Rank)} (hx : s.ble x.2 = true) (ht : rankLB s t) :
    rankLB s (x :: t) := by
  intro y hy
  rcases List.mem_cons.mp hy with h' | h'
  · subst h'; exact hx
  · exact ht y h'
theorem rankLB_of_mem_append {α : Type} {s : Rank} {l1 l2 : List (α × Rank)}
    (h1 : rankLB s l1) (h2 : rankLB s l2) : rankLB s (l1 ++ l2) := by
  intro y hy
  rcases List.mem_append.mp hy with h' | h'
  · exact h1 y h'
  · exact h2 y h'
/-- On rank-monotone inputs whose heads both dominate `seen_rank`, the
source's merge step is the canonical stable rank merge: the
"drain the left side at `seen_rank`" branch coincides with the plain
`r1 <= r2` branch. -/
theorem mergeStep_eq_rankMerge {α : Type} :
    ∀ (l1 l2 : List (α × Rank)) (seen : Rank),
    RanksMono l1 → RanksMono l2 → rankLB seen l1 → rankLB seen l2 →
    mergeStep l1 l2 seen = rankMerge l1 l2 := by
  intro l1 l2 seen
  induction l1, l2, seen using mergeStep.induct with
  | case1 l2 seen =>
      intro _ _ _ _
      simp [mergeStep, rankMerge]
  | case2 l1 seen h =>
      intro _ _ _ _
      rw [mergeStep_nil_right, rankMerge_nil_right]
  | case3 v1 t1 v2 r2 t2 seen ih =>
      intro h1 h2 b1 b2
      have hseenr2 : seen.ble r2 = true := b2 (v2, r2) (by simp)
      rw [mergeStep, if_pos rfl, rankMerge, if_pos hseenr2]
      exact congrArg (List.cons (v1, seen))
        (ih h1.tail_of_cons h2
          (fun y hy => (List.pairwise_cons.mp h1).1 y hy) b2)
  | case4 v1 r1 t1 v2 r2 t2 seen h₁ h₂ ih =>
      intro h1 h2 b1 b2
      rw [mergeStep]
      simp only [if_neg h₁, if_pos h₂]
      rw [rankMerge, if_pos h₂]
      refine congrArg (List.cons (v1, r1)) ?_
      refine ih h1.tail_of_cons h2
        (fun y hy => (List.pairwise_cons.mp h1).1 y hy) ?_
      intro y hy
      rcases List.mem_cons.mp hy with h' | h'
      · subst h'; exact h₂
      · exact Rank.ble_trans h₂ ((List.pairwise_cons.mp h2).1 y h')
  | case5 v1 r1 t1 v2 r2 t2 seen h₁ h₂ ih =>
      intro h1 h2 b1 b2
      rw [mergeStep]
      simp only [if_neg h₁, if_neg h₂]
      rw [rankMerge, if_neg h₂]
      refine congrArg (List.cons (v2, r2)) ?_
      have hr2r1 : r2.ble r1 = true :=
        Rank.ble_total (by simpa using h₂)
      refine ih h1 h2.tail_of_cons ?_
        (fun y hy => (List.pairwise_cons.mp h2).1 y hy)
      intro y hy
      rcases List.mem_cons.mp hy with h' | h'
      · subst h'; exact hr2r1
      · exact Rank.ble_trans hr2r1 ((List.pairwise_cons.mp h1).1 y h')
theorem rankMerge_mono {α : Type} :
    ∀ (l1 l2 : List (α × Rank)),
    RanksMono l1 → RanksMono l2 → RanksMono (rankMerge l1 l2) := by
  intro l1 l2
  induction l1, l2 using rankMerge.induct with
  | case1 l2 => intro _ h2; simpa [rankMerge] using h2
  | case2 l1 h => intro h1 _; rw [rankMerge_nil_right]; exact h1
  | case3 v1 r1 t1 v2 r2 t2 h ih =>
      intro h1 h2
      rw [rankMerge, if_pos h]
      refine List.pairwise_cons.mpr ⟨?_, ih h1.tail_of_cons h2⟩
      intro y hy
      have hy' : y ∈ t1 ++ (v2, r2) :: t2 :=
        (rankMerge_perm_append t1 ((v2, r2) :: t2)).mem_iff.mp hy
      rcases List.mem_append.mp hy' with h' | h'
      · exact (List.pairwise_cons.mp h1).1 y h'
      · rcases List.mem_cons.mp h' with h'' | h''
        · subst h''; exact h
        · exact Rank.ble_trans h ((List.pairwise_cons.mp h2).1 y h'')
  | case4 v1 r1 t1 v2 r2 t2 h ih =>
      intro h1 h2
      rw [rankMerge, if_neg h]
      have hr2r1 : r2.ble r1 = true := Rank.ble_total (by simpa using h)
      refine List.pairwise_cons.mpr ⟨?_, ih h1 h2.tail_of_cons⟩
      intro y hy
      have hy' : y ∈ ((v1, r1) :: t1) ++ t2 :=
        (rankMerge_perm_append ((v1, r1) :: t1) t2).mem_iff.mp hy
      rcases List.mem_append.mp hy' with h' | h'
      · rcases List.mem_cons.mp h' with h'' | h''
        · subst h''; exact hr2r1
        · exact Rank.ble_trans hr2r1 ((List.pairwise_cons.mp h1).1 y h'')
      · exact (List.pairwise_cons.mp h2).1 y h'
/-- At every rank, the merged sequence lists the contributions of the
first argument before those of the second: the equal-rank tie-break. -/
theorem rankMerge_filter_rank {α : Type} [DecidableEq α] :
    ∀ (l1 l2 : List (α × Rank)), RanksMono l1 → ∀ (r : Rank),
    (rankMerge l1 l2).filter (fun x => x.2 = r)
      = l1.filter (fun x => x.2 = r) ++ l2.filter (fun x => x.2 = r) := by
  intro l1 l2
  induction l1, l2 using rankMerge.induct with
  | case1 l2 => intro _ r; simp [rankMerge]
  | case2 l1 h => intro _ r; rw [rankMerge_nil_right]; simp
  | case3 v1 r1 t1 v2 r2 t2 h ih =>
      intro h1 r
      rw [rankMerge, if_pos h]
      have ihr := ih h1.tail_of_cons r
      by_cases hr : r1 = r
      · simp [List.filter_cons, hr, ihr]
      · simp [List.filter_cons, hr, ihr]
  | case4 v1 r1 t1 v2 r2 t2 h ih =>
      intro h1 r
      rw [rankMerge, if_neg h]
      have ihr := ih h1 r
      by_cases hr : r2 = r
      · subst hr
        have hstrict : r2.blt r1 = true := Rank.blt_iff_not_ble.mpr
          (by simpa using h)
        have hnone : ((v1, r1) :: t1).filter (fun x => x.2 = r2) = [] := by
          rw [List.filter_eq_nil_iff]
          intro y hy
          have hle : r1.ble y.2 = true := h1.head_lb y hy
          simp only [decide_eq_true_eq]
          intro heq
          rw [heq] at hle
          rw [Rank.blt_iff_not_ble] at hstrict
          rw [hstrict] at hle
          exact Bool.false_ne_true hle
        simp [List.filter_cons, hnone, ihr]
      · simp [List.filter_cons, hr, ihr]
theorem dropWhile_length_le {α : Type} (p : α → Bool) :
    ∀ l : List α, (l.dropWhile p).length ≤ l.length := by
  intro l
  induction l with
  | nil => simp
  | cons x t ih =>
      rw [List.dropWhile_cons]
      split
      · simp only [List.length_cons]
        omega
      · simp
theorem iterAdvance_length_lt {α : Type} (eqFn : Option (α → α → Bool))
    (dedup : Bool) (x : α × Rank) (rest : List (α × Rank)) :
    (iterAdvance eqFn dedup (x :: rest)).length < (x :: rest).length := by
  rcases x with ⟨v, r⟩
  rcases dedup with _ | _
  · simp [iterAdvance]
  · rcases eqFn with _ | eq
    · simp [iterAdvance]
    · have := dropWhile_length_le (fun q => eq q.1 v) rest
      simp only [iterAdvance, if_true, List.length_cons]
      omega
theorem deepcopyList_eq {α : Type} (l : List (α × Rank)) :
    deepcopyList l = l := by
  induction l with
  | nil => rfl
  | cons x t ih =>
      rcases x with ⟨v, r⟩
      rw [deepcopyList, ih]

theorem shiftList_mono {α : Type} {l : List (α × Rank)}
    (h : RanksMono l) (δ : Rank) : RanksMono (shiftList l δ) := by
  unfold shiftList RanksMono
  exact List.Pairwise.map _ (fun a b hab => Rank.ble_add_right δ hab) h

theorem shiftList_lb {α : Type} (l : List (α × Rank)) (δ : Rank) :
    rankLB δ (shiftList l δ) := by
  intro x hx
  unfold shiftList at hx
  obtain ⟨y, _, rfl⟩ := List.mem_map.mp hx
  exact Rank.ble_add_left δ y.2

/-- C8 counterexample: the claim says `from_value(u)` succeeds for every
`u < 2^63`, but the source rejects `u >= max_finite_value()` where
`max_finite_value()` is `2^63 - 1`, so `u = 2^63 - 1` (which is below
`2^63`) fails with the invalid-value error. -/
theorem C8_from_value_counterexample :
    Rank.fromValue 9223372036854775807 = .error .invalidValue ∧
    9223372036854775807 < 2 ^ 63 := by
  constructor
  · rfl
  · decide

/-- C8 (amended): `Rank::from_value(u)` returns the finite rank `u`
exactly when `u < 2^63 - 1` (`max_finite_value()`), and fails with the
invalid-value error exactly when `u >= 2^63 - 1`. -/
theorem C8_from_value_amended (u : Nat) :
    Rank.fromValue u =
      if u < Rank.maxFiniteValue then .ok (.fin u)
      else .error .invalidValue := by
  unfold Rank.fromValue
  by_cases h : u < Rank.maxFiniteValue
  · rw [if_neg (by omega), if_pos h]
  · rw [if_pos (by omega), if_neg h]

theorem C8_from_value_amended_witness :
    Rank.fromValue 42 =
      if 42 < Rank.maxFiniteValue then .ok (.fin 42)
      else .error .invalidValue :=
  C8_from_value_amended 42

/-- C10: when the value type supports no equality (and is not
`std::any`), `skip_duplicates_of` compiles to an empty body, so an
iterator built with deduplication enabled advances by exactly one node —
the same transition as with deduplication disabled — and a full
traversal enumerates every node. -/
theorem C10_no_equality_dedup_is_noop {α : Type} (dedup : Bool)
    (l : List (α × Rank)) :
    iterAdvance (α := α) none dedup l = iterAdvance none false l ∧
    iterToList (α := α) none dedup l = l := by
  constructor
  · cases l with
    | nil => rfl
    | cons x rest =>
        rcases x with ⟨v, r⟩
        cases dedup <;> rfl
  · have key : ∀ (n : Nat) (m : List (α × Rank)), m.length ≤ n →
        iterToList (α := α) none dedup m = m := by
      intro n
      induction n with
      | zero =>
          intro m hm
          rw [Nat.le_zero, List.length_eq_zero] at hm
          subst hm
          rw [iterToList]
      | succ n ih =>
          intro m hm
          cases m with
          | nil => rw [iterToList]
          | cons x rest =>
              rw [iterToList]
              have hadv : iterAdvance (α := α) none dedup (x :: rest)
                  = rest := by
                rcases x with ⟨v, r⟩
                cases dedup <;> rfl
              rw [hadv, ih rest (by simp at hm; omega)]
    exact key l.length l (Nat.le_refl _)

theorem C10_no_equality_dedup_is_noop_witness :
    iterToList (α := Nat → Nat) none true [(fun n => n + 1, Rank.zero)]
      = [(fun n => n + 1, Rank.zero)] :=
  (C10_no_equality_dedup_is_noop true [(fun n => n + 1, Rank.zero)]).2

/-- C9: merging a sequence with itself (head-pointer-equal arguments):
with deduplication enabled the source returns the first argument
unchanged; with deduplication disabled it merges against a lazy deep
copy, and the result enumerates every `(value, rank)` pair of the input
exactly twice — nothing is lost to shared node structure. -/
theorem C9_merge_self {α : Type} [DecidableEq α] (l : List (α × Rank)) :
    mergeSameHead l true = l ∧
    ∀ p : α × Rank, (mergeSameHead l false).countP (fun x => x = p)
      = 2 * l.countP (fun x => x = p) := by
  constructor
  · rfl
  · intro p
    have hfalse : mergeSameHead l false
        = mergeStep l (deepcopyList l) Rank.zero := by
      unfold mergeSameHead
      rw [if_neg (by simp)]
    have hc := (mergeStep_perm_append l (deepcopyList l) Rank.zero).countP_eq
      (fun x => x = p)
    rw [hfalse, hc, List.countP_append, deepcopyList_eq]
    omega

theorem C9_merge_self_witness :
    mergeSameHead [((3 : Nat), Rank.zero), (4, Rank.fin 2)] true
        = [((3 : Nat), Rank.zero), (4, Rank.fin 2)] ∧
      (mergeSameHead [((3 : Nat), Rank.zero), (4, Rank.fin 2)] false).countP
        (fun x => x = ((3 : Nat), Rank.zero))
        = 2 * [((3 : Nat), Rank.zero), (4, Rank.fin 2)].countP
            (fun x => x = ((3 : Nat), Rank.zero)) :=
  ⟨(C9_merge_self [((3 : Nat), Rank.zero), (4, Rank.fin 2)]).1,
   (C9_merge_self [((3 : Nat), Rank.zero), (4, Rank.fin 2)]).2
     ((3 : Nat), Rank.zero)⟩

/-- C2: for rank-monotone sequences with distinct node graphs,
`merge(a, b, dedup)` enumerates exactly the multiset union of the two
inputs (every pair occurs as often as in `a` and `b` together), in
non-decreasing rank order, and at every rank the contributions of `a`
precede the contributions of `b`. -/
theorem C2_merge_union_sorted_tiebreak {α : Type} [DecidableEq α]
    (a b : List (α × Rank)) (ha : RanksMono a) (hb : RanksMono b) :
    (∀ p : α × Rank, (mergeList a b).countP (fun x => x = p)
        = a.countP (fun x => x = p) + b.countP (fun x => x = p)) ∧
    RanksMono (mergeList a b) ∧
    (∀ r : Rank, (mergeList a b).filter (fun x => x.2 = r)
        = a.filter (fun x => x.2 = r) ++ b.filter (fun x => x.2 = r)) := by
  have heq : mergeList a b = rankMerge a b :=
    mergeStep_eq_rankMerge a b Rank.zero ha hb (rankLB_zero a) (rankLB_zero b)
  refine ⟨?_, ?_, ?_⟩
  · intro p
    rw [heq, (rankMerge_perm_append a b).countP_eq (fun x => x = p),
      List.countP_append]
  · rw [heq]
    exact rankMerge_mono a b ha hb
  · intro r
    rw [heq]
    exact rankMerge_filter_rank a b ha r

theorem C2_merge_union_sorted_tiebreak_witness :
    RanksMono (mergeList [((1 : Nat), Rank.zero), (3, Rank.fin 1)]
        [(2, Rank.zero), (4, Rank.fin 1)]) ∧
    (mergeList [((1 : Nat), Rank.zero), (3, Rank.fin 1)]
        [(2, Rank.zero), (4, Rank.fin 1)]).filter (fun x => x.2 = Rank.zero)
      = [((1 : Nat), Rank.zero), (3, Rank.fin 1)].filter
          (fun x => x.2 = Rank.zero)
        ++ [((2 : Nat), Rank.zero), (4, Rank.fin 1)].filter
          (fun x => x.2 = Rank.zero) ∧
    (mergeList [((1 : Nat), Rank.zero), (3, Rank.fin 1)]
        [(2, Rank.zero), (4, Rank.fin 1)]).countP
        (fun x => x = ((1 : Nat), Rank.zero))
      = [((1 : Nat), Rank.zero), (3, Rank.fin 1)].countP
          (fun x => x = ((1 : Nat), Rank.zero))
        + [((2 : Nat), Rank.zero), (4, Rank.fin 1)].countP
          (fun x => x = ((1 : Nat), Rank.zero)) :=
  ⟨(C2_merge_union_sorted_tiebreak _ _ (by decide) (by decide)).2.1,
   (C2_merge_union_sorted_tiebreak _ _ (by decide) (by decide)).2.2
     Rank.zero,
   (C2_merge_union_sorted_tiebreak _ _ (by decide) (by decide)).1
     ((1 : Nat), Rank.zero)⟩

/-- C6: forcing a fresh suspension runs its computation and stores the
outcome; the computation handle is dropped; a second force does not run
anything, returns the identical outcome — the stored value, or the
identically captured failure — and leaves the state fixed, so every
later force behaves the same. -/
theorem C6_promise_single_execution {E T : Type} (c : Unit → Except E T) :
    ((Promise.fromComputation c).force).ran = true ∧
    ((Promise.fromComputation c).force).result
      = (c ()).mapError PromiseError.user ∧
    ((Promise.fromComputation c).force).state.computation = none ∧
    (((Promise.fromComputation c).force).state.force).ran = false ∧
    (((Promise.fromComputation c).force).state.force).result
      = ((Promise.fromComputation c).force).result ∧
    (((Promise.fromComputation c).force).state.force).state
      = ((Promise.fromComputation c).force).state := by
  cases h : c () with
  | ok v =>
      simp [Promise.fromComputation, Promise.force,
        Promise.executeComputation, h, Except.mapError]
  | error e =>
      simp [Promise.fromComputation, Promise.force,
        Promise.executeComputation, h, Except.mapError]

theorem C6_promise_single_execution_witness :
    ((Promise.fromComputation (fun _ => (.ok 3 : Except Nat Nat))).force).ran
        = true ∧
    ((Promise.fromComputation (fun _ => (.ok 3 : Except Nat Nat))).force).result
        = ((.ok 3 : Except Nat Nat)).mapError PromiseError.user ∧
    ((Promise.fromComputation
        (fun _ => (.ok 3 : Except Nat Nat))).force).state.computation
        = none ∧
    (((Promise.fromComputation
        (fun _ => (.ok 3 : Except Nat Nat))).force).state.force).ran = false ∧
    (((Promise.fromComputation
        (fun _ => (.ok 3 : Except Nat Nat))).force).state.force).result
      = ((Promise.fromComputation
        (fun _ => (.ok 3 : Except Nat Nat))).force).result ∧
    (((Promise.fromComputation
        (fun _ => (.ok 3 : Except Nat Nat))).force).state.force).state
      = ((Promise.fromComputation
        (fun _ => (.ok 3 : Except Nat Nat))).force).state := by
  have h := C6_promise_single_execution (fun _ => (.ok 3 : Except Nat Nat))
  simpa using h

/-- C7: the Promise move constructor cannot move the `std::once_flag`,
so a moved promise that had been forced to a failure re-enters
`execute_computation` on the next force; with the computation already
cleared, the stored failure is overwritten by the logic error and the
original captured failure is lost — moving does not transfer the full
memoized slot. -/
theorem C7_move_after_failed_force_loses_failure :
    ((Promise.fromComputation c7comp).force).result = .error (.user 7) ∧
    (Promise.moveFrom
        ((Promise.fromComputation c7comp).force).state).exception
      = some (.user 7) ∧
    ((Promise.moveFrom
        ((Promise.fromComputation c7comp).force).state).force).result
      = .error .noComputation ∧
    ((Promise.moveFrom
        ((Promise.fromComputation c7comp).force).state).force).result
      ≠ ((Promise.fromComputation c7comp).force).result := by
  refine ⟨rfl, rfl, rfl, ?_⟩
  intro h
  simp [Promise.fromComputation, Promise.force, Promise.executeComputation,
    Promise.moveFrom, c7comp] at h

theorem RanksMono.filter {α : Type} {l : List (α × Rank)}
    (hm : RanksMono l) (p : α → Bool) : RanksMono (filterList p l) :=
  List.Pairwise.sublist (List.filter_sublist l) hm

theorem Rank.subTrunc_self_fin (n : Nat) :
    (Rank.fin n).subTrunc (Rank.fin n) = Rank.zero := by
  simp [Rank.subTrunc, Rank.zero]

theorem normalizeWithShift_no_inf {α : Type} (l : List (α × Rank))
    (δ : Rank) (hδ : δ ≠ Rank.inf) :
    ∀ x ∈ normalizeWithShift l δ, x.2 ≠ Rank.inf := by
  induction l with
  | nil => simp [normalizeWithShift]
  | cons y t ih =>
      rcases y with ⟨v, r⟩
      rw [normalizeWithShift]
      split
      · simp
      · rename_i hr
        intro x hx
        rcases List.mem_cons.mp hx with h' | h'
        · subst h'
          rcases r with n | _
          · rcases δ with d | _
            · simp [Rank.subTrunc]
            · exact absurd rfl hδ
          · exact absurd rfl hr
        · exact ih x h'

theorem normalizeWithShift_eq_map {α : Type} (l : List (α × Rank))
    (δ : Rank) (h : ∀ y ∈ l, y.2 ≠ Rank.inf) :
    normalizeWithShift l δ = l.map (fun x => (x.1, x.2.subTrunc δ)) := by
  induction l with
  | nil => rfl
  | cons y t ih =>
      rcases y with ⟨v, r⟩
      rw [normalizeWithShift]
      have hr : r ≠ Rank.inf := h (v, r) (by simp)
      rw [if_neg hr, List.map_cons]
      exact congrArg _ (ih (fun y hy => h y (List.mem_cons_of_mem _ hy)))

theorem rankDiffs_map_sub {α : Type} (d : Nat) :
    ∀ l : List (α × Rank), RanksMono l → rankLB (.fin d) l →
    (∀ y ∈ l, y.2 ≠ Rank.inf) →
    rankDiffs (l.map (fun x => (x.1, x.2.subTrunc (.fin d))))
      = rankDiffs l := by
  intro l
  induction l with
  | nil => intro _ _ _; rfl
  | cons a t ih =>
      cases t with
      | nil =>
          intro _ _ _
          rcases a with ⟨va, r1⟩
          rfl
      | cons b t2 =>
          intro hm hlb hni
          rcases a with ⟨va, r1⟩
          rcases b with ⟨vb, r2⟩
          obtain ⟨n1, rfl⟩ : ∃ n, r1 = Rank.fin n := by
            rcases r1 with n | _
            · exact ⟨n, rfl⟩
            · exact absurd rfl (hni (va, .inf) (by simp))
          obtain ⟨n2, rfl⟩ : ∃ n, r2 = Rank.fin n := by
            rcases r2 with n | _
            · exact ⟨n, rfl⟩
            · exact absurd rfl (hni (vb, .inf) (by simp))
          have hd1 : d ≤ n1 := by
            have := hlb (va, .fin n1) (by simp)
            simpa [Rank.ble] using this
          have h12 : n1 ≤ n2 := by
            have := (List.pairwise_cons.mp hm).1 (vb, .fin n2) (by simp)
            simpa [Rank.ble] using this
          have htail := ih hm.tail_of_cons
            (fun y hy => hlb y (List.mem_cons_of_mem _ hy))
            (fun y hy => hni y (List.mem_cons_of_mem _ hy))
          simp only [List.map_cons] at htail ⊢
          rw [rankDiffs, rankDiffs, htail]
          have hhead : Rank.subChecked ((Rank.fin n2).subTrunc (.fin d))
              ((Rank.fin n1).subTrunc (.fin d))
              = (Rank.fin n2).subChecked (.fin n1) := by
            simp only [Rank.subTrunc, Rank.subChecked]
            rw [if_neg (by omega), if_neg (by omega)]
            have : n2 - d - (n1 - d) = n2 - n1 := by omega
            rw [this]
          rw [hhead]

/-- C4 counterexample: the claim says iterating `observe(A, p)` never
yields an infinite rank, but when the first surviving rank is zero the
source returns the filtered sequence unchanged, infinite tail included:
here `observe` surfaces `(2, infinity)`. -/
theorem C4_observe_infinity_counterexample :
    observeList (fun _ => true) [((1 : Nat), Rank.zero), (2, Rank.inf)]
      = [(1, Rank.zero), (2, Rank.inf)] ∧
    ((2 : Nat), Rank.inf) ∈
      observeList (fun _ => true) [((1 : Nat), Rank.zero), (2, Rank.inf)] := by
  constructor
  · decide
  · decide

/-- C4 (amended): `observe` never surfaces an infinitely ranked element
provided the first rank surviving the filter is not zero: the empty and
infinite-head cases yield nothing, and the renormalization walk ends the
sequence at the first infinite rank.  When the first surviving rank is
zero the filtered sequence is returned unchanged and may retain its
infinitely ranked tail. -/
theorem C4_observe_drops_infinity {α : Type} (p : α → Bool)
    (l : List (α × Rank))
    (h : (filterList p l).head?.map (fun x => x.2) ≠ some Rank.zero) :
    ∀ x ∈ observeList p l, x.2 ≠ Rank.inf := by
  intro x hx
  unfold observeList at hx
  split at hx
  · simp at hx
  · rename_i v r t heq
    split at hx
    · simp at hx
    · split at hx
      · rename_i hrinf hrzero
        refine absurd ?_ h
        rw [heq, hrzero]
        rfl
      · rename_i hrinf hrzero
        exact normalizeWithShift_no_inf (filterList p l) r hrinf x hx

theorem C4_observe_drops_infinity_witness :
    (((1 : Nat), Rank.fin 0)).2 ≠ Rank.inf :=
  C4_observe_drops_infinity (fun _ => true)
    [((1 : Nat), Rank.fin 1), (2, Rank.inf)] (by decide)
    ((1 : Nat), Rank.fin 0) (by decide)

/-- C3 counterexample: the claim says the pairwise rank differences of
`observe(A, p)` equal those of `filter(A, p)`, but the renormalization
walk ends the sequence at the first infinite rank while the filtered
sequence keeps it: at `A = [(1, 1), (2, infinity)]` with the always-true
predicate, `observe` has no difference pairs while `filter` has one. -/
theorem C3_observe_diffs_counterexample :
    rankDiffs (observeList (fun _ => true)
        [((1 : Nat), Rank.fin 1), (2, Rank.inf)])
      ≠ rankDiffs (filterList (fun _ => true)
        [((1 : Nat), Rank.fin 1), (2, Rank.inf)]) := by
  decide

/-- C3 (amended): on a rank-monotone input, a non-empty `observe(A, p)`
starts at rank zero; and the pairwise rank differences of
`observe(A, p)` equal those of `filter(A, p)` provided no element
surviving the filter has an infinite rank. -/
theorem C3_observe_renormalization {α : Type} (p : α → Bool)
    (l : List (α × Rank)) (hm : RanksMono l) :
    (∀ x t, observeList p l = x :: t → x.2 = Rank.zero) ∧
    ((∀ y ∈ filterList p l, y.2 ≠ Rank.inf) →
      rankDiffs (observeList p l) = rankDiffs (filterList p l)) := by
  constructor
  · intro x t' hx
    unfold observeList at hx
    split at hx
    · simp at hx
    · rename_i v r t heq
      split at hx
      · simp at hx
      · split at hx
        · rename_i hrinf hrzero
          rw [heq] at hx
          rw [List.cons.injEq] at hx
          rw [← hx.1, hrzero]
        · rename_i hrinf hrzero
          rw [heq, normalizeWithShift, if_neg hrinf, List.cons.injEq] at hx
          rw [← hx.1]
          rcases r with n | _
          · exact Rank.subTrunc_self_fin n
          · exact absurd rfl hrinf
  · intro hni
    unfold observeList
    split
    · rename_i heq
      rw [heq]
    · rename_i v r t heq
      have hmf : RanksMono (filterList p l) := hm.filter p
      split
      · rename_i hrinf
        refine absurd ?_ (hni (v, r) (by rw [heq]; simp))
        exact hrinf
      · split
        · rfl
        · rename_i hrinf hrzero
          obtain ⟨k, rfl⟩ : ∃ n, r = Rank.fin n := by
            rcases r with n | _
            · exact ⟨n, rfl⟩
            · exact absurd rfl hrinf
          rw [normalizeWithShift_eq_map _ _ hni]
          refine rankDiffs_map_sub k (filterList p l) hmf ?_ hni
          rw [heq]
          exact (heq ▸ hmf).head_lb

theorem C3_observe_renormalization_witness :
    rankDiffs (observeList (fun v => 2 ≤ v)
        [((1 : Nat), Rank.fin 2), (2, Rank.fin 5), (3, Rank.fin 9)])
      = rankDiffs (filterList (fun v => 2 ≤ v)
        [((1 : Nat), Rank.fin 2), (2, Rank.fin 5), (3, Rank.fin 9)]) :=
  (C3_observe_renormalization (fun v => 2 ≤ v)
    [((1 : Nat), Rank.fin 2), (2, Rank.fin 5), (3, Rank.fin 9)]
    (by decide)).2 (by decide)

/-- C5: for rank-monotone inputs, `normal_exceptional` enumerates
exactly `shift_ranks(exceptional, delta)` when `normal` is empty, and
exactly `merge(normal, shift_ranks(exceptional, delta), dedup)`
otherwise — also when `delta` is below the normal head's rank, in which
case the exceptional head is emitted first. -/
theorem C5_normal_exceptional_is_merge {α : Type}
    (normal exc : List (α × Rank)) (δ : Rank)
    (hn : RanksMono normal) (he : RanksMono exc) :
    (normal = [] → normalExceptional normal exc δ = shiftList exc δ) ∧
    (normal ≠ [] →
      normalExceptional normal exc δ
        = mergeList normal (shiftList exc δ)) := by
  constructor
  · intro h
    subst h
    rfl
  · intro hne
    obtain ⟨x, ntail, rfl⟩ := List.exists_cons_of_ne_nil hne
    rcases x with ⟨v, rN⟩
    have hms : RanksMono (shiftList exc δ) := shiftList_mono he δ
    have heq : mergeList ((v, rN) :: ntail) (shiftList exc δ)
        = rankMerge ((v, rN) :: ntail) (shiftList exc δ) :=
      mergeStep_eq_rankMerge _ _ Rank.zero hn hms
        (rankLB_zero _) (rankLB_zero _)
    rw [heq]
    unfold normalExceptional
    cases hS : shiftList exc δ with
    | nil =>
        rw [rankMerge_nil_right]
        show (v, rN) :: mergeStep ntail [] Rank.zero = (v, rN) :: ntail
        rw [mergeStep_nil_right]
    | cons x1 etail =>
        rcases x1 with ⟨w, rE⟩
        show (if (δ.ble rN && rE.blt rN) = true then
            (w, rE) :: mergeStep ((v, rN) :: ntail) etail Rank.zero
          else (v, rN) :: mergeStep ntail ((w, rE) :: etail) Rank.zero)
          = rankMerge ((v, rN) :: ntail) ((w, rE) :: etail)
        have hδE : δ.ble rE = true := by
          have := shiftList_lb exc δ (w, rE) (by rw [hS]; simp)
          exact this
        have hmsS : RanksMono ((w, rE) :: etail) := hS ▸ hms
        by_cases hcase : rE.blt rN = true
        · have hNE : rN.ble rE = false := Rank.blt_iff_not_ble.mp hcase
          have hδN : δ.ble rN = true :=
            Rank.ble_trans hδE (Rank.ble_total hNE)
          rw [if_pos (by rw [hδN, hcase]; rfl)]
          rw [rankMerge, if_neg (by rw [hNE]; exact Bool.false_ne_true)]
          exact congrArg (List.cons (w, rE))
            (mergeStep_eq_rankMerge _ _ Rank.zero hn hmsS.tail_of_cons
              (rankLB_zero _) (rankLB_zero _))
        · have hNle : rN.ble rE = true := by
            rcases hble : rN.ble rE with _ | _
            · exact absurd (Rank.blt_iff_not_ble.mpr hble) hcase
            · rfl
          have hcond : (δ.ble rN && rE.blt rN) = false := by
            rw [Bool.and_eq_false_iff]
            right
            rcases hb : rE.blt rN with _ | _
            · rfl
            · exact absurd hb hcase
          rw [if_neg (by rw [hcond]; exact Bool.false_ne_true)]
          rw [rankMerge, if_pos hNle]
          exact congrArg (List.cons (v, rN))
            (mergeStep_eq_rankMerge _ _ Rank.zero hn.tail_of_cons hmsS
              (rankLB_zero _) (rankLB_zero _))

theorem C5_normal_exceptional_is_merge_witness :
    normalExceptional [((5 : Nat), Rank.fin 2)] [(9, Rank.fin 0)] Rank.zero
      = mergeList [((5 : Nat), Rank.fin 2)]
          (shiftList [(9, Rank.fin 0)] Rank.zero) :=
  (C5_normal_exceptional_is_merge [((5 : Nat), Rank.fin 2)]
    [(9, Rank.fin 0)] Rank.zero (by decide) (by decide)).2 (by decide)

/-- C1 fails on `merge_apply`: on the rank-monotone input
`[(0, 0), (1, 1)]` with the rank-monotone-resulting function
`c1f` (`0` maps to ranks `0, 5`, `1` maps to rank `9`), the source's
`detail::merge_with_ranks` forces the rest sequence as soon as the
pending first-sequence rank (5) exceeds the promised minimum (1), and
emits the forced head (rank 10) without re-comparing it against the
pending element — yielding ranks `0, 10, 5`, not non-decreasing.  (Every
other claim-listed operation is order-correct; this single operation
already falsifies the claim, and the library documents non-decreasing
ranks as its invariant.) -/
theorem C1_merge_apply_breaks_monotonicity :
    RanksMono c1input ∧ (∀ n, RanksMono (c1f n)) ∧
    mergeApplyList c1f c1input
      = [(10, Rank.fin 0), (12, Rank.fin 10), (11, Rank.fin 5)] ∧
    ¬ RanksMono (mergeApplyList c1f c1input) := by
  have heval : mergeApplyList c1f c1input
      = [(10, Rank.fin 0), (12, Rank.fin 10), (11, Rank.fin 5)] := by
    simp [mergeApplyList, c1f, c1input, shiftList, Rank.add, mwr, Rank.ble]
  refine ⟨by decide, ?_, heval, ?_⟩
  · intro n
    unfold c1f
    split
    · decide
    · split
      · decide
      · decide
  · rw [heval]
    decide

end RankedBelief
